import Mathlib

/-!
Formal model of the case-review reconciliation and annotation engine.

The definitions below are shallow embeddings of the review-page logic:
JavaScript objects keyed by strings (or integer positions) are modelled as
association lists with unique keys, arrays as `List`, and the numeric
`Math.round` as `round` on `ℚ`.  Each definition is a direct transcription
of the corresponding function in the review surfaces.
-/

namespace DocETL

/-- Lookup in an association list (models reading `obj[key]` on a JS object;
returns `none` when the key is absent). -/
def lookupA {α β : Type} [DecidableEq α] : List (α × β) → α → Option β
  | [], _ => none
  | (k, v) :: rest, key => if k = key then some v else lookupA rest key

/-- Assignment `obj[key] = v` on a JS object: overwrite in place when the key
exists, append otherwise. -/
def setA {α β : Type} [DecidableEq α] : List (α × β) → α → β → List (α × β)
  | [], key, v => [(key, v)]
  | (k, w) :: rest, key, v =>
    if k = key then (key, v) :: rest else (k, w) :: setA rest key v

/-- Deletion `delete obj[key]` on a JS object. -/
def eraseA {α β : Type} [DecidableEq α] : List (α × β) → α → List (α × β)
  | [], _ => []
  | (k, w) :: rest, key =>
    if k = key then eraseA rest key else (k, w) :: eraseA rest key

/-- JS `String.prototype.trim`: strip leading and trailing whitespace.
Implemented directly over the character list so that it computes by kernel
reduction; agrees with the runtime on the ASCII whitespace the review pages
ever see. -/
def jsTrim (s : String) : String :=
  String.mk
    (((s.data.dropWhile Char.isWhitespace).reverse.dropWhile
      Char.isWhitespace).reverse)

/-- JS `String.prototype.toLowerCase` on the ASCII range: lower-case the
letters `A`-`Z` and leave every other character unchanged. -/
def jsToLower (s : String) : String :=
  String.mk (s.data.map (fun c =>
    if 'A' ≤ c ∧ c ≤ 'Z' then Char.ofNat (c.toNat + 32) else c))

/-- Inner comment map of one section: position-indexed comment texts. -/
abbrev InnerComments := List (Nat × String)

/-- The annotation store: `comments[section][index] = text`. -/
abbrev CommentStore := List (String × InnerComments)

/-- Transcription of `saveComment(section, index, comment)` from the enhanced
review page: a non-blank comment (after `trim`) is stored verbatim; a blank
comment deletes the position key, and the section key too when its inner map
becomes empty. -/
def saveComment (comments : CommentStore) (sec : String) (index : Nat)
    (comment : String) : CommentStore :=
  let inner := (lookupA comments sec).getD []
  if jsTrim comment ≠ "" then
    setA comments sec (setA inner index comment)
  else
    let inner' := eraseA inner index
    if inner' = [] then eraseA comments sec
    else setA comments sec inner'

/-- The stored comment value at a position: `comments[section]?.[index]`. -/
def commentAt (comments : CommentStore) (sec : String) (index : Nat) :
    Option String :=
  (lookupA comments sec).bind (fun inner => lookupA inner index)

/-- Transcription of `getComment`: `comments[section]?.[index] || ''`. -/
def getComment (comments : CommentStore) (sec : String) (index : Nat) : String :=
  (commentAt comments sec index).getD ""

/-- Every stored comment text is non-empty. -/
def nonEmptyTexts (comments : CommentStore) : Prop :=
  ∀ sec inner, lookupA comments sec = some inner → ∀ p ∈ inner, p.2 ≠ ""

/-- Every section key present in the store has a non-empty inner map. -/
def sectionsNonEmpty (comments : CommentStore) : Prop :=
  ∀ sec inner, lookupA comments sec = some inner → inner ≠ []

/-- Value of one key of the legacy page's section maps (`analysis` / `edits`):
an array of finding strings, or some non-array value (skipped by the metrics
walk: `if (!Array.isArray(...)) return`). -/
inductive LVal where
  | arr (items : List String)
  | other
deriving DecidableEq

/-- A legacy section map. -/
abbrev Sections := List (String × LVal)

/-- Reading a section as an item array: `map[section] || []`.  A non-array
value is not indexable as a findings list and contributes no items. -/
def asItems : Option LVal → List String
  | some (LVal.arr l) => l
  | _ => []

/-- Transcription of `updateListItem`: `newEdits[section][index] = value`.
Positions at or beyond the array length leave later reads unchanged only via
`List.set`'s out-of-range behaviour, matching in-range use by the UI. -/
def updateListItem (edits : Sections) (sec : String) (index : Nat)
    (value : String) : Sections :=
  match lookupA edits sec with
  | some (LVal.arr l) => setA edits sec (LVal.arr (l.set index value))
  | _ => edits

/-- Transcription of `removeListItem`: `newEdits[section].splice(index, 1)`. -/
def removeListItem (edits : Sections) (sec : String) (index : Nat) : Sections :=
  match lookupA edits sec with
  | some (LVal.arr l) => setA edits sec (LVal.arr (l.eraseIdx index))
  | _ => edits

/-- Transcription of `addListItem`: create the section when absent, then
`push('')`. -/
def addListItem (edits : Sections) (sec : String) : Sections :=
  match lookupA edits sec with
  | some (LVal.arr l) => setA edits sec (LVal.arr (l ++ [""]))
  | some LVal.other => edits
  | none => setA edits sec (LVal.arr [""])

/-- JS falsiness of an array read `items[idx]` over string arrays:
`undefined` (out of range) and the empty string are falsy. -/
def isFalsy : Option String → Bool
  | none => true
  | some s => s = ""

/-- Change status of one displayed position, as computed by the
reconciliation walk. -/
inductive ChangeStatus where
  | unchanged
  | edited
  | removed
  | added
deriving DecidableEq

/-- Transcription of `getItemChangeStatus(section, index)`: positions beyond
the original length are `added`; a falsy edited entry is `removed`; a
differing entry is `edited`; otherwise `unchanged`. -/
def getItemChangeStatus (analysis edits : Sections) (sec : String)
    (index : Nat) : ChangeStatus :=
  let aiItems := asItems (lookupA analysis sec)
  let editItems := asItems (lookupA edits sec)
  if aiItems.length ≤ index then ChangeStatus.added
  else if isFalsy (editItems.get? index) then ChangeStatus.removed
  else if aiItems.get? index ≠ editItems.get? index then ChangeStatus.edited
  else ChangeStatus.unchanged

/-- The classification list of a section over original-then-new positions,
one status per position of the longer of the two arrays. -/
def classifications (analysis edits : Sections) (sec : String) :
    List ChangeStatus :=
  let m := (asItems (lookupA analysis sec)).length
  let n := (asItems (lookupA edits sec)).length
  (List.range (max m n)).map (getItemChangeStatus analysis edits sec)

/-- Per-section count of positions the metrics walk classifies `unchanged`:
`editItems[idx]` truthy and `aiItem === editItems[idx]`. -/
def countUnchanged (aiItems editItems : List String) : Nat :=
  (List.range aiItems.length).countP (fun i =>
    !(isFalsy (editItems.get? i)) && (aiItems.get? i == editItems.get? i))

/-- Per-section count of positions the metrics walk classifies `edited`. -/
def countEdited (aiItems editItems : List String) : Nat :=
  (List.range aiItems.length).countP (fun i =>
    !(isFalsy (editItems.get? i)) && !(aiItems.get? i == editItems.get? i))

/-- Per-section count of positions the metrics walk classifies `removed`:
`!editItems[idx]`. -/
def countRemoved (aiItems editItems : List String) : Nat :=
  (List.range aiItems.length).countP (fun i => isFalsy (editItems.get? i))

/-- Sum over all array-valued analysis sections of a per-section statistic,
pairing each with `edits[section] || []`. -/
def sumOver (analysis edits : Sections)
    (f : List String → List String → Nat) : Nat :=
  (analysis.map (fun kv =>
    match kv.2 with
    | LVal.other => 0
    | LVal.arr aiItems => f aiItems (asItems (lookupA edits kv.1)))).sum

/-- Case-level rollup metrics returned by `calculateEditMetrics`. -/
structure Metrics where
  totalAI : Nat
  unchanged : Nat
  edited : Nat
  removed : Nat
  added : Nat
  enhancementRate : ℤ
deriving DecidableEq

/-- Transcription of `calculateEditMetrics`: walk every array-valued analysis
section, classify each original position, count additions beyond the original
length, and return `Math.round(((edited + removed + added) / totalAI) * 100)`
as the enhancement rate (`0` when `totalAI` is zero). -/
def calculateEditMetrics (analysis edits : Sections) : Metrics :=
  let t := sumOver analysis edits (fun ai _ => ai.length)
  let u := sumOver analysis edits countUnchanged
  let e := sumOver analysis edits countEdited
  let r := sumOver analysis edits countRemoved
  let a := sumOver analysis edits (fun ai ed => ed.length - ai.length)
  ⟨t, u, e, r, a,
    if 0 < t then round ((((e + r + a : Nat) : ℚ) / (t : ℚ)) * 100) else 0⟩

/-- The in-memory working copy at the case boundary: the edited section map
together with the annotation store. -/
structure CaseState where
  edits : Sections
  comments : CommentStore
deriving DecidableEq

/-- Removal of a finding as the code performs it: `removeListItem` splices
the edited array and the annotation store is not touched by any code path. -/
def removeFindingOp (st : CaseState) (sec : String) (index : Nat) : CaseState :=
  ⟨removeListItem st.edits sec index, st.comments⟩

/-- Try to match the bracketed citation pattern
`\[([A-Z]\x7b2,\x7d-\d\x7b4\x7d-\d+)\]` at the head of the character list;
on success return the captured identifier and the characters after the
closing bracket. -/
def matchAt (cs : List Char) : Option (String × List Char) :=
  match cs with
  | '[' :: r1 =>
    let u := r1.takeWhile Char.isUpper
    if 2 ≤ u.length then
      match r1.drop u.length with
      | '-' :: r3 =>
        let d1 := r3.take 4
        if d1.length = 4 ∧ d1.all Char.isDigit then
          match r3.drop 4 with
          | '-' :: r5 =>
            let d2 := r5.takeWhile Char.isDigit
            if d2.length ≠ 0 then
              match r5.drop d2.length with
              | ']' :: r7 => some (String.mk (u ++ '-' :: d1 ++ '-' :: d2), r7)
              | _ => none
            else none
          | _ => none
        else none
      | _ => none
    else none
  | _ => none

/-- Left-to-right scan collecting all non-overlapping citation matches and
the characters outside every match, exactly as a global regex `exec` loop
paired with `replace(pattern, '')`.  The fuel argument only serves structural
recursion; each step consumes at least one character, so any fuel above the
list length is enough. -/
def scanF : Nat → List Char → List Char × List String
  | 0, cs => (cs, [])
  | _ + 1, [] => ([], [])
  | fuel + 1, c :: cs =>
    match matchAt (c :: cs) with
    | some (id, rest) =>
      let p := scanF fuel rest
      (p.1, id :: p.2)
    | none =>
      let p := scanF fuel cs
      (c :: p.1, p.2)

/-- Result of citation extraction: cleaned display text plus the identifier
list in match order. -/
structure ExtractResult where
  cleanText : String
  recordIds : List String
deriving DecidableEq

/-- Transcription of `extractRecordIds`: collect every bracketed identifier
left to right, strip the matched bracket syntax from the text, and `trim`
the remainder for display. -/
def extractRecordIds (text : String) : ExtractResult :=
  let p := scanF (text.data.length + 1) text.data
  ⟨jsTrim (String.mk p.1), p.2⟩

/-- Metadata of a structured finding that the filter engine consults: the
optional `legal_relevance` field, and the `JSON.stringify` rendering of the
whole object used for substring search. -/
structure SFinding where
  legal_relevance : Option String
  stringified : String
deriving DecidableEq

/-- A finding of the enhanced page: a plain string or a structured object. -/
inductive Finding where
  | plain (text : String)
  | structured (f : SFinding)
deriving DecidableEq

/-- Value of one key of the enhanced page's `analysis` map: an array of
findings, or some non-array value (skipped by the filter walk). -/
inductive SectionValue where
  | arr (items : List Finding)
  | other
deriving DecidableEq

/-- Whether a finding is a structured object (`typeof x === 'object'`). -/
def isStructured : Finding → Bool
  | Finding.plain _ => false
  | Finding.structured _ => true

/-- Transcription of `isStructuredArray`: non-empty and first element an
object. -/
def isStructuredArray : List Finding → Bool
  | [] => false
  | f :: _ => isStructured f

/-- The `legal_relevance` field of a finding (`undefined` on plain text). -/
def relevanceOf : Finding → Option String
  | Finding.plain _ => none
  | Finding.structured f => f.legal_relevance

/-- The text the search filter matches against:
`typeof item === 'string' ? item : JSON.stringify(item)`. -/
def searchableText : Finding → String
  | Finding.plain s => s
  | Finding.structured f => f.stringified

/-- Transcription of the relevance predicate:
`!relevance || selectedLegalRelevance.has(relevance)` over the lowercased
field (an empty lowercased value is falsy and passes). -/
def relevancePass (sel : List String) (item : Finding) : Bool :=
  match relevanceOf item with
  | none => true
  | some r => (jsToLower r == "") || sel.contains (jsToLower r)

/-- Transcription of the search predicate: case-insensitive substring match
of the query against the finding's serialized content. -/
def searchPass (searchLower : String) (item : Finding) : Bool :=
  decide (List.IsInfix searchLower.data (jsToLower (searchableText item)).data)

/-- Per-section body of the `filteredSections` walk: apply the relevance
facet filter when the array is structured, then the search filter when the
query is non-empty. -/
def sectionFilter (searchTerm : String) (sel : List String)
    (items : List Finding) : List Finding :=
  let items1 :=
    if isStructuredArray items then items.filter (relevancePass sel) else items
  if searchTerm ≠ "" then items1.filter (searchPass (jsToLower searchTerm))
  else items1

/-- Transcription of the `filteredSections` memo: walk the analysis entries
in order, skip non-array values, filter each section, and keep only sections
with at least one visible finding. -/
def filteredSections (analysis : List (String × SectionValue))
    (searchTerm : String) (sel : List String) : List (String × List Finding) :=
  analysis.filterMap (fun kv =>
    match kv.2 with
    | SectionValue.other => none
    | SectionValue.arr items =>
      let its := sectionFilter searchTerm sel items
      if its = [] then none else some (kv.1, its))

/-- The enhanced page's state that the filter view reads. -/
structure EnhancedState where
  analysis : List (String × SectionValue)
  edits : List (String × SectionValue)
  comments : CommentStore
  searchTerm : String
  selectedLegalRelevance : List String

/-- Computing the filtered view as a step on the page state: the memo reads
the state and produces a derived value; no state field is written. -/
def runFilterView (st : EnhancedState) :
    List (String × List Finding) × EnhancedState :=
  (filteredSections st.analysis st.searchTerm st.selectedLegalRelevance, st)

/-- Original `contradictions` section of the end-to-end scenario. -/
def c2Analysis : Sections := [("contradictions", LVal.arr ["c1", "c2"])]

/-- Edited sections after appending a finding with text `new issue` and then
removing the finding at position `0`. -/
def c2Edits : Sections :=
  removeListItem
    (updateListItem (addListItem c2Analysis "contradictions")
      "contradictions" 2 "new issue")
    "contradictions" 0

/-- Original section of the reconciliation-correctness scenario. -/
def c3Analysis : Sections := [("s", LVal.arr ["x", "y", "z"])]

/-- Edited section of the reconciliation-correctness scenario. -/
def c3Edits : Sections := [("s", LVal.arr ["x", "Y", "z", "w"])]

/-- Analysis map with a single structured finding of low legal relevance. -/
def c6Analysis : List (String × SectionValue) :=
  [("contradictions", SectionValue.arr [Finding.structured ⟨some "low", "x"⟩])]

/-- The items of the single section of `c6Analysis`. -/
def c6Items : List Finding := [Finding.structured ⟨some "low", "x"⟩]

/-- Concrete analysis sections for the classifier evaluation. -/
def c9Analysis : Sections := [("s", LVal.arr ["a", "b"])]

/-- Concrete edited sections whose position `1` holds the empty string. -/
def c9Edits : Sections := [("s", LVal.arr ["a", ""])]

/-- Lookup after assignment: the assigned key reads the new value, every
other key is unaffected. -/
theorem lookupA_setA {α β : Type} [DecidableEq α] (m : List (α × β))
    (k key : α) (v : β) :
    lookupA (setA m k v) key = if key = k then some v else lookupA m key := by
  induction m with
  | nil =>
    by_cases h : key = k
    · simp [setA, lookupA, h]
    · simp [setA, lookupA, h, Ne.symm h]
  | cons hd tl ih =>
    obtain ⟨k', w⟩ := hd
    by_cases hk : k' = k
    · subst hk
      by_cases h : key = k'
      · subst h
        simp [setA, lookupA]
      · simp [setA, lookupA, h, Ne.symm h]
    · by_cases h : k' = key
      · subst h
        simp [setA, lookupA, hk]
      · simp [setA, lookupA, hk, h, ih]

/-- Lookup after deletion: the deleted key is absent, every other key is
unaffected. -/
theorem lookupA_eraseA {α β : Type} [DecidableEq α] (m : List (α × β))
    (k key : α) :
    lookupA (eraseA m k) key = if key = k then none else lookupA m key := by
  induction m with
  | nil => by_cases h : key = k <;> simp [eraseA, lookupA, h]
  | cons hd tl ih =>
    obtain ⟨k', w⟩ := hd
    by_cases hk : k' = k
    · subst hk
      by_cases h : key = k'
      · subst h
        simp [eraseA, lookupA, ih]
      · simp [eraseA, lookupA, h, Ne.symm h, ih]
    · by_cases h : k' = key
      · subst h
        simp [eraseA, lookupA, hk, ih]
      · simp [eraseA, lookupA, hk, h, ih]

/-- An assignment never produces the empty object. -/
theorem setA_ne_nil {α β : Type} [DecidableEq α] (m : List (α × β))
    (k : α) (v : β) : setA m k v ≠ [] := by
  cases m with
  | nil => simp [setA]
  | cons hd tl =>
    obtain ⟨k', w⟩ := hd
    simp only [setA]
    by_cases hk : k' = k <;> simp [hk]

/-- Every binding of an object after an assignment is the new binding or one
of the old ones. -/
theorem mem_setA {α β : Type} [DecidableEq α] {m : List (α × β)}
    {k : α} {v : β} {p : α × β} (hp : p ∈ setA m k v) :
    p = (k, v) ∨ p ∈ m := by
  induction m with
  | nil =>
    simp [setA] at hp
    exact Or.inl hp
  | cons hd tl ih =>
    obtain ⟨k', w⟩ := hd
    simp only [setA] at hp
    by_cases hk : k' = k
    · simp only [if_pos hk, List.mem_cons] at hp
      rcases hp with h | h
      · exact Or.inl h
      · exact Or.inr (List.mem_cons_of_mem _ h)
    · simp only [if_neg hk, List.mem_cons] at hp
      rcases hp with h | h
      · exact Or.inr (h ▸ List.mem_cons_self _ _)
      · rcases ih h with h' | h'
        · exact Or.inl h'
        · exact Or.inr (List.mem_cons_of_mem _ h')

/-- Every binding of an object after a deletion was already present. -/
theorem mem_eraseA {α β : Type} [DecidableEq α] {m : List (α × β)}
    {k : α} {p : α × β} (hp : p ∈ eraseA m k) : p ∈ m := by
  induction m with
  | nil => simp [eraseA] at hp
  | cons hd tl ih =>
    obtain ⟨k', w⟩ := hd
    simp only [eraseA] at hp
    by_cases hk : k' = k
    · simp only [if_pos hk] at hp
      exact List.mem_cons_of_mem _ (ih hp)
    · simp only [if_neg hk, List.mem_cons] at hp
      rcases hp with h | h
      · exact h ▸ List.mem_cons_self _ _
      · exact List.mem_cons_of_mem _ (ih h)

/-- A non-blank string (after trimming) is not the empty string. -/
theorem ne_empty_of_jsTrim_ne_empty {s : String} (h : jsTrim s ≠ "") :
    s ≠ "" := by
  intro hs
  subst hs
  exact h rfl

/-- Saving a comment preserves the invariant that every stored comment text
is non-empty. -/
theorem saveComment_nonEmptyTexts (cs : CommentStore) (sec : String) (i : Nat)
    (c : String) (h : nonEmptyTexts cs) :
    nonEmptyTexts (saveComment cs sec i c) := by
  intro sec' inner' hlook p hp
  by_cases hc : jsTrim c ≠ ""
  · simp only [saveComment, if_pos hc] at hlook
    rw [lookupA_setA] at hlook
    by_cases hs : sec' = sec
    · rw [if_pos hs] at hlook
      injection hlook with heq
      subst heq
      rcases mem_setA hp with hpc | hpold
      · subst hpc
        exact ne_empty_of_jsTrim_ne_empty hc
      · cases hcs : lookupA cs sec with
        | none => simp [hcs] at hpold
        | some inn =>
          rw [hcs] at hpold
          exact h sec inn hcs p hpold
    · rw [if_neg hs] at hlook
      exact h sec' inner' hlook p hp
  · rw [not_not] at hc
    simp only [saveComment, hc, ne_eq, not_true_eq_false, if_false] at hlook
    by_cases he : eraseA ((lookupA cs sec).getD []) i = []
    · rw [if_pos he, lookupA_eraseA] at hlook
      by_cases hs : sec' = sec
      · rw [if_pos hs] at hlook
        exact absurd hlook (by simp)
      · rw [if_neg hs] at hlook
        exact h sec' inner' hlook p hp
    · rw [if_neg he, lookupA_setA] at hlook
      by_cases hs : sec' = sec
      · rw [if_pos hs] at hlook
        injection hlook with heq
        subst heq
        have hpold := mem_eraseA hp
        cases hcs : lookupA cs sec with
        | none => simp [hcs] at hpold
        | some inn =>
          rw [hcs] at hpold
          exact h sec inn hcs p hpold
      · rw [if_neg hs] at hlook
        exact h sec' inner' hlook p hp

/-- Saving a comment preserves the invariant that every section key present
in the store has a non-empty inner map. -/
theorem saveComment_sectionsNonEmpty (cs : CommentStore) (sec : String)
    (i : Nat) (c : String) (h : sectionsNonEmpty cs) :
    sectionsNonEmpty (saveComment cs sec i c) := by
  intro sec' inner' hlook
  by_cases hc : jsTrim c ≠ ""
  · simp only [saveComment, if_pos hc] at hlook
    rw [lookupA_setA] at hlook
    by_cases hs : sec' = sec
    · rw [if_pos hs] at hlook
      injection hlook with heq
      subst heq
      exact setA_ne_nil _ _ _
    · rw [if_neg hs] at hlook
      exact h sec' inner' hlook
  · rw [not_not] at hc
    simp only [saveComment, hc, ne_eq, not_true_eq_false, if_false] at hlook
    by_cases he : eraseA ((lookupA cs sec).getD []) i = []
    · rw [if_pos he, lookupA_eraseA] at hlook
      by_cases hs : sec' = sec
      · rw [if_pos hs] at hlook
        exact absurd hlook (by simp)
      · rw [if_neg hs] at hlook
        exact h sec' inner' hlook
    · rw [if_neg he, lookupA_setA] at hlook
      by_cases hs : sec' = sec
      · rw [if_pos hs] at hlook
        injection hlook with heq
        subst heq
        exact he
      · rw [if_neg hs] at hlook
        exact h sec' inner' hlook

/-- C4: for every section and position, saving the empty string after a
previously stored non-blank comment removes the position key from the store
entirely, a subsequent `getComment` returns the empty string, and every
`saveComment` preserves the invariant that a position key exists in the inner
map only with non-empty comment text. -/
theorem c4_clearing_removes_position_key (cs : CommentStore) (sec : String)
    (i : Nat) (c : String) (hc : jsTrim c ≠ "") :
    commentAt (saveComment (saveComment cs sec i c) sec i "") sec i = none ∧
    getComment (saveComment (saveComment cs sec i c) sec i "") sec i = "" ∧
    (∀ c', nonEmptyTexts cs → nonEmptyTexts (saveComment cs sec i c')) := by
  have hmain :
      commentAt (saveComment (saveComment cs sec i c) sec i "") sec i = none := by
    have h1 : saveComment cs sec i c =
        setA cs sec (setA ((lookupA cs sec).getD []) i c) := by
      simp only [saveComment, if_pos hc]
    have htrim : jsTrim "" = "" := rfl
    rw [h1]
    have hlook1 : lookupA (setA cs sec (setA ((lookupA cs sec).getD []) i c))
        sec = some (setA ((lookupA cs sec).getD []) i c) := by
      rw [lookupA_setA]
      simp
    simp only [saveComment, htrim, ne_eq, not_true_eq_false, if_false, hlook1,
      Option.getD_some]
    by_cases he : eraseA (setA ((lookupA cs sec).getD []) i c) i = []
    · rw [if_pos he]
      unfold commentAt
      rw [lookupA_eraseA]
      simp
    · rw [if_neg he]
      unfold commentAt
      rw [lookupA_setA]
      simp [lookupA_eraseA]
  refine ⟨hmain, ?_, fun c' h => saveComment_nonEmptyTexts cs sec i c' h⟩
  rw [getComment, hmain]
  rfl

/-- C4 witness: the clearing behaviour evaluated at a concrete store, and the
non-empty-text invariant after a concrete save. -/
theorem c4_witness :
    commentAt (saveComment (saveComment [] "timeline" 0 "note") "timeline" 0 "")
      "timeline" 0 = none ∧
    getComment (saveComment (saveComment [] "timeline" 0 "note") "timeline" 0 "")
      "timeline" 0 = "" ∧
    nonEmptyTexts (saveComment [] "timeline" 0 "x") :=
  ⟨(c4_clearing_removes_position_key [] "timeline" 0 "note" (by decide)).1,
   (c4_clearing_removes_position_key [] "timeline" 0 "note" (by decide)).2.1,
   (c4_clearing_removes_position_key [] "timeline" 0 "note" (by decide)).2.2 "x"
     (fun sec inner h => by simp [lookupA] at h)⟩

/-- C10: after every comment save, a section key is present only with a
non-empty inner map, and a clear that empties a section's inner map deletes
the section key itself. -/
theorem c10_no_empty_section_objects (cs : CommentStore) (sec : String)
    (i : Nat) (c : String) :
    (sectionsNonEmpty cs → sectionsNonEmpty (saveComment cs sec i c)) ∧
    (jsTrim c = "" → eraseA ((lookupA cs sec).getD []) i = [] →
      lookupA (saveComment cs sec i c) sec = none) := by
  refine ⟨saveComment_sectionsNonEmpty cs sec i c, fun hc he => ?_⟩
  simp only [saveComment, hc, ne_eq, not_true_eq_false, if_false, if_pos he]
  rw [lookupA_eraseA]
  simp

/-- C10 witness: the invariant after a concrete save, and the deletion of a
section key emptied by a clear. -/
theorem c10_witness :
    sectionsNonEmpty (saveComment [] "s" 0 "hi") ∧
    lookupA (saveComment [("s", [(0, "a")])] "s" 0 "") "s" = none :=
  ⟨(c10_no_empty_section_objects [] "s" 0 "hi").1
     (fun sec inner h => by simp [lookupA] at h),
   (c10_no_empty_section_objects [("s", [(0, "a")])] "s" 0 "").2 (by decide)
     (by decide)⟩

/-- C1: removal of a finding never re-keys the annotation store — the code
leaves the comment store untouched.  Evaluated at the spec's own scenario
(comments at positions 0 and 2 of `timeline`, removal of the finding at
position 0), the store stays `\x7b0: "a", 2: "b"\x7d` instead of the required
`\x7b1: "b"\x7d`. -/
theorem c1_removal_does_not_rekey_comments :
    (∀ (st : CaseState) (sec : String) (i : Nat),
      (removeFindingOp st sec i).comments = st.comments) ∧
    (removeFindingOp
        ⟨[("timeline", LVal.arr ["f0", "f1", "f2"])],
         [("timeline", [(0, "a"), (2, "b")])]⟩ "timeline" 0).comments =
      [("timeline", [(0, "a"), (2, "b")])] ∧
    (removeFindingOp
        ⟨[("timeline", LVal.arr ["f0", "f1", "f2"])],
         [("timeline", [(0, "a"), (2, "b")])]⟩ "timeline" 0).edits =
      [("timeline", LVal.arr ["f1", "f2"])] ∧
    (removeFindingOp
        ⟨[("timeline", LVal.arr ["f0", "f1", "f2"])],
         [("timeline", [(0, "a"), (2, "b")])]⟩ "timeline" 0).comments ≠
      [("timeline", [(1, "b")])] := by
  refine ⟨fun st sec i => rfl, by decide, by decide, by decide⟩

/-- C2 counterexample: after appending `new issue` and removing position 0 of
a two-finding `contradictions` section, the positional classifier yields
`[edited, edited]`, not `[removed, unchanged, added]`, and the computed
enhancement rate is the rounded percentage `100`, not the fraction `1.0`. -/
theorem c2_counterexample :
    classifications c2Analysis c2Edits "contradictions" =
      [ChangeStatus.edited, ChangeStatus.edited] ∧
    classifications c2Analysis c2Edits "contradictions" ≠
      [ChangeStatus.removed, ChangeStatus.unchanged, ChangeStatus.added] ∧
    (calculateEditMetrics c2Analysis c2Edits).enhancementRate = 100 ∧
    (100 : ℤ) ≠ 1 := by
  refine ⟨by decide, by decide, ?_, by decide⟩
  have h : (calculateEditMetrics c2Analysis c2Edits).enhancementRate =
      (if 0 < (2 : Nat) then
        round ((((2 + 0 + 0 : Nat) : ℚ) / ((2 : Nat) : ℚ)) * 100) else 0) := rfl
  rw [h]
  norm_num [round_eq]

/-- C2 amended: the end-to-end scenario (append `new issue`, then remove the
finding at position 0) yields the position-identity classifications
`[edited, edited]` — the removal shifts every later finding into a slot it is
compared against — and the enhancement rate is `100`, the rounded percentage
of 2 changed positions out of 2 original findings. -/
theorem c2_amended_scenario :
    c2Edits = [("contradictions", LVal.arr ["c2", "new issue"])] ∧
    classifications c2Analysis c2Edits "contradictions" =
      [ChangeStatus.edited, ChangeStatus.edited] ∧
    (calculateEditMetrics c2Analysis c2Edits).enhancementRate = 100 := by
  refine ⟨by decide, by decide, ?_⟩
  have h : (calculateEditMetrics c2Analysis c2Edits).enhancementRate =
      (if 0 < (2 : Nat) then
        round ((((2 + 0 + 0 : Nat) : ℚ) / ((2 : Nat) : ℚ)) * 100) else 0) := rfl
  rw [h]
  norm_num [round_eq]

/-- C3 counterexample: on original `["x","y","z"]` and edited
`["x","Y","z","w"]`, the computed enhancement rate is the rounded percentage
`67`, which is neither the fraction `2/3` nor exactly `2/3` rescaled by 100. -/
theorem c3_counterexample :
    (calculateEditMetrics c3Analysis c3Edits).enhancementRate = 67 ∧
    (67 : ℚ) ≠ 2 / 3 ∧
    (67 : ℚ) / 100 ≠ 2 / 3 := by
  refine ⟨?_, by norm_num, by norm_num⟩
  have h : (calculateEditMetrics c3Analysis c3Edits).enhancementRate =
      (if 0 < (3 : Nat) then
        round ((((1 + 0 + 1 : Nat) : ℚ) / ((3 : Nat) : ℚ)) * 100) else 0) := rfl
  rw [h]
  norm_num [round_eq]

/-- C3 amended: the classifier assigns `[unchanged, edited, unchanged, added]`
to the scenario's four positions, and the enhancement rate is the rounded
percentage `Math.round(100 * (edited + removed + added) / totalOriginal)` —
here `67` — with `0` whenever there are no original findings. -/
theorem c3_amended_reconciliation :
    classifications c3Analysis c3Edits "s" =
      [ChangeStatus.unchanged, ChangeStatus.edited, ChangeStatus.unchanged,
       ChangeStatus.added] ∧
    (calculateEditMetrics c3Analysis c3Edits).enhancementRate = 67 ∧
    (∀ analysis edits : Sections, (calculateEditMetrics analysis edits).totalAI = 0 →
      (calculateEditMetrics analysis edits).enhancementRate = 0) := by
  refine ⟨by decide, ?_, ?_⟩
  · have h : (calculateEditMetrics c3Analysis c3Edits).enhancementRate =
        (if 0 < (3 : Nat) then
          round ((((1 + 0 + 1 : Nat) : ℚ) / ((3 : Nat) : ℚ)) * 100) else 0) := rfl
    rw [h]
    norm_num [round_eq]
  · intro analysis edits h
    have ht : sumOver analysis edits (fun ai _ => ai.length) = 0 := h
    simp only [calculateEditMetrics, ht]
    norm_num

/-- C3 amended witness: the zero-original case evaluated at the empty maps. -/
theorem c3_amended_witness :
    (calculateEditMetrics [] []).enhancementRate = 0 :=
  c3_amended_reconciliation.2.2 [] [] (by decide)

/-- C9: at every position strictly inside the original array, the classifier
returns `removed` exactly when the edited entry there is falsy; the status at
such a position depends only on the edited entry read at that position (not
on the edited array's length); and overwriting an in-range entry with the
empty string via `updateListItem` makes the position classify as `removed`. -/
theorem c9_removed_iff_falsy (analysis edits : Sections) (sec : String)
    (i : Nat) (hi : i < (asItems (lookupA analysis sec)).length) :
    (getItemChangeStatus analysis edits sec i = ChangeStatus.removed ↔
      isFalsy ((asItems (lookupA edits sec)).get? i) = true) ∧
    (∀ edits₂ : Sections,
      (asItems (lookupA edits₂ sec)).get? i =
        (asItems (lookupA edits sec)).get? i →
      getItemChangeStatus analysis edits₂ sec i =
        getItemChangeStatus analysis edits sec i) ∧
    (i < (asItems (lookupA edits sec)).length →
      getItemChangeStatus analysis (updateListItem edits sec i "") sec i =
        ChangeStatus.removed) := by
  refine ⟨?_, ?_, ?_⟩
  · simp only [getItemChangeStatus]
    rw [if_neg (not_le.mpr hi)]
    by_cases hf : isFalsy ((asItems (lookupA edits sec)).get? i) = true
    · rw [if_pos hf]
      exact iff_of_true rfl hf
    · rw [if_neg hf]
      refine iff_of_false ?_ hf
      by_cases hd : (asItems (lookupA analysis sec)).get? i ≠
          (asItems (lookupA edits sec)).get? i
      · rw [if_pos hd]
        exact fun h => ChangeStatus.noConfusion h
      · rw [if_neg hd]
        exact fun h => ChangeStatus.noConfusion h
  · intro edits₂ heq
    simp only [getItemChangeStatus, heq]
  · intro hE
    cases hv : lookupA edits sec with
    | none =>
      rw [hv] at hE
      simp [asItems] at hE
    | some v =>
      cases v with
      | other =>
        rw [hv] at hE
        simp [asItems] at hE
      | arr l =>
        rw [hv] at hE
        simp only [asItems] at hE
        have hlook2 : lookupA (setA edits sec (LVal.arr (l.set i ""))) sec =
            some (LVal.arr (l.set i "")) := by
          rw [lookupA_setA]
          simp
        simp only [updateListItem, hv]
        simp only [getItemChangeStatus]
        rw [if_neg (not_le.mpr hi), hlook2]
        have hset : (l.set i "").get? i = some "" :=
          List.get?_set_eq_of_lt _ hE
        have hred : asItems (some (LVal.arr (l.set i ""))) = l.set i "" := rfl
        rw [hred, hset]
        simp [isFalsy]

/-- C9 witness: the removed-iff-falsy equivalence and the empty-string update
behaviour evaluated at concrete two-element sections. -/
theorem c9_witness :
    (getItemChangeStatus c9Analysis c9Edits "s" 1 = ChangeStatus.removed ↔
      isFalsy ((asItems (lookupA c9Edits "s")).get? 1) = true) ∧
    getItemChangeStatus c9Analysis (updateListItem c9Edits "s" 1 "") "s" 1 =
      ChangeStatus.removed :=
  ⟨(c9_removed_iff_falsy c9Analysis c9Edits "s" 1 (by decide)).1,
   (c9_removed_iff_falsy c9Analysis c9Edits "s" 1 (by decide)).2.2 (by decide)⟩

/-- C5: on the spec's example input the extractor returns the cleaned display
text with both bracketed tokens removed and the two identifiers in
left-to-right order. -/
theorem c5_citation_extraction :
    extractRecordIds "Gap noted [AB-2024-001][AB-2024-002]." =
      ⟨"Gap noted .", ["AB-2024-001", "AB-2024-002"]⟩ := by decide

/-- When the scan collects no identifiers, it keeps every character. -/
theorem scanF_nil_ids (fuel : Nat) : ∀ cs : List Char, cs.length < fuel →
    (scanF fuel cs).2 = [] → (scanF fuel cs).1 = cs := by
  induction fuel with
  | zero =>
    intro cs h
    exact absurd h (Nat.not_lt_zero _)
  | succ n ih =>
    intro cs hlen hids
    cases cs with
    | nil => rfl
    | cons c rest =>
      cases hm : matchAt (c :: rest) with
      | some p =>
        obtain ⟨id, r⟩ := p
        exfalso
        simp only [scanF, hm] at hids
        exact List.cons_ne_nil _ _ hids
      | none =>
        simp only [scanF, hm] at hids ⊢
        have h1 : rest.length < n := Nat.lt_of_succ_lt_succ hlen
        rw [ih rest h1 hids]

/-- C7 counterexample: on the whitespace-padded input, the extractor finds no
identifiers yet returns a text that differs from the input, because the
cleaned text is trimmed. -/
theorem c7_counterexample :
    (extractRecordIds " x ").recordIds = [] ∧
    (extractRecordIds " x ").cleanText = "x" ∧
    ("x" : String) ≠ " x " := by decide

/-- C7 amended: citation extraction is a pure total transform, and with zero
bracketed matches it returns an empty identifier list together with the input
text unchanged except for trimming of leading and trailing whitespace. -/
theorem c7_zero_matches_trims (text : String)
    (h : (extractRecordIds text).recordIds = []) :
    (extractRecordIds text).cleanText = jsTrim text := by
  simp only [extractRecordIds] at h ⊢
  have hl : text.data.length < text.data.length + 1 := Nat.lt_succ_self _
  have h1 := scanF_nil_ids (text.data.length + 1) text.data hl h
  rw [h1]

/-- C7 amended witness: the trimming identity evaluated at a concrete
match-free input. -/
theorem c7_zero_matches_witness :
    (extractRecordIds "abc").cleanText = jsTrim "abc" :=
  c7_zero_matches_trims "abc" (by decide)

/-- A key absent from the analysis map is absent from the filtered result. -/
theorem lookupA_filteredSections_not_mem (analysis : List (String × SectionValue))
    (q : String) (sel : List String) (key : String)
    (hk : key ∉ analysis.map Prod.fst) :
    lookupA (filteredSections analysis q sel) key = none := by
  induction analysis with
  | nil => rfl
  | cons hd tl ih =>
    obtain ⟨k, v⟩ := hd
    simp only [List.map_cons, List.mem_cons, not_or] at hk
    obtain ⟨hk1, hk2⟩ := hk
    show lookupA (List.filterMap _ ((k, v) :: tl)) key = none
    rw [List.filterMap_cons]
    cases v with
    | other => exact ih hk2
    | arr items =>
      by_cases hits : sectionFilter q sel items = []
      · simp only [hits, if_pos]
        exact ih hk2
      · simp only [if_neg hits]
        show lookupA ((k, sectionFilter q sel items) :: _) key = none
        rw [lookupA]
        rw [if_neg (fun h : k = key => hk1 h.symm)]
        exact ih hk2

/-- Lookup of a section of the filtered result, in terms of the per-section
filter of that section's items: present with the filtered items when some
finding survives, absent otherwise. -/
theorem lookupA_filteredSections (analysis : List (String × SectionValue))
    (q : String) (sel : List String) (key : String) (items : List Finding)
    (hnd : (analysis.map Prod.fst).Nodup)
    (hmem : (key, SectionValue.arr items) ∈ analysis) :
    lookupA (filteredSections analysis q sel) key =
      if sectionFilter q sel items = [] then none
      else some (sectionFilter q sel items) := by
  induction analysis with
  | nil => simp at hmem
  | cons hd tl ih =>
    obtain ⟨k, v⟩ := hd
    simp only [List.map_cons, List.nodup_cons] at hnd
    obtain ⟨hknotin, hndtl⟩ := hnd
    rcases List.mem_cons.mp hmem with heq | htl
    · cases heq.symm
      show lookupA (List.filterMap _ ((key, SectionValue.arr items) :: tl)) key =
        _
      rw [List.filterMap_cons]
      by_cases hits : sectionFilter q sel items = []
      · simp only [hits, if_pos]
        exact lookupA_filteredSections_not_mem tl q sel key hknotin
      · simp only [if_neg hits]
        show lookupA ((key, sectionFilter q sel items) :: _) key = _
        rw [lookupA, if_pos rfl]
    · have hkey : ¬ k = key := by
        intro h
        subst h
        exact hknotin (List.mem_map_of_mem Prod.fst htl)
      show lookupA (List.filterMap _ ((k, v) :: tl)) key = _
      rw [List.filterMap_cons]
      cases v with
      | other => exact ih hndtl htl
      | arr items2 =>
        by_cases h2 : sectionFilter q sel items2 = []
        · simp only [h2, if_pos]
          exact ih hndtl htl
        · simp only [if_neg h2]
          show lookupA ((k, sectionFilter q sel items2) :: _) key = _
          rw [lookupA, if_neg hkey]
          exact ih hndtl htl

/-- C6: with active relevance facet `\x7bhigh\x7d` and an empty query, a
structured finding whose relevance is `low` never appears in its section's
filtered result, and a section whose findings are all filtered out is absent
from the filtered result entirely. -/
theorem c6_facet_filter_excludes_low (analysis : List (String × SectionValue))
    (key : String) (items : List Finding)
    (hnd : (analysis.map Prod.fst).Nodup)
    (hmem : (key, SectionValue.arr items) ∈ analysis)
    (hstruct : isStructuredArray items = true) :
    (∀ res, lookupA (filteredSections analysis "" ["high"]) key = some res →
      ∀ f ∈ res, relevanceOf f ≠ some "low") ∧
    (sectionFilter "" ["high"] items = [] →
      lookupA (filteredSections analysis "" ["high"]) key = none) := by
  have hL := lookupA_filteredSections analysis "" ["high"] key items hnd hmem
  constructor
  · intro res hres f hf hrel
    rw [hL] at hres
    by_cases hits : sectionFilter "" ["high"] items = []
    · rw [if_pos hits] at hres
      cases hres
    · rw [if_neg hits] at hres
      injection hres with h'
      subst h'
      have hmemf : f ∈ items.filter (relevancePass ["high"]) := by
        simpa [sectionFilter, hstruct] using hf
      have hpass := (List.mem_filter.mp hmemf).2
      rw [relevancePass, hrel] at hpass
      exact absurd hpass (by decide)
  · intro hits
    rw [hL, if_pos hits]

/-- C6 witness: a single-section analysis map whose only structured finding
has low relevance is filtered out entirely under the `\x7bhigh\x7d` facet. -/
theorem c6_witness :
    lookupA (filteredSections c6Analysis "" ["high"]) "contradictions" = none :=
  (c6_facet_filter_excludes_low c6Analysis "contradictions" c6Items
    (by decide) (by decide) (by decide)).2 (by decide)

/-- C8: computing the filtered view is display-only — it returns the page
state unchanged (in particular `editedSections`), and every section of the
output is a sublist of that section's unfiltered findings, so no finding
array is altered. -/
theorem c8_filtering_is_display_only :
    (∀ st : EnhancedState, (runFilterView st).2.edits = st.edits ∧
      (runFilterView st).2 = st) ∧
    (∀ (q : String) (sel : List String) (items : List Finding),
      (sectionFilter q sel items).Sublist items) := by
  constructor
  · intro st
    exact ⟨rfl, rfl⟩
  · intro q sel items
    by_cases hs : isStructuredArray items = true
    · by_cases hq : q ≠ ""
      · simp only [sectionFilter, if_pos hs, if_pos hq]
        exact (List.filter_sublist _).trans (List.filter_sublist _)
      · simp only [sectionFilter, if_pos hs, if_neg hq]
        exact List.filter_sublist _
    · by_cases hq : q ≠ ""
      · simp only [sectionFilter, if_neg hs, if_pos hq]
        exact List.filter_sublist _
      · simp only [sectionFilter, if_neg hs, if_neg hq]
        exact List.Sublist.refl _

end DocETL
